import Mathlib

/-!
Shallow embedding of the FEN position-change detection and stabilization
pipeline (`mainListener.js`) and the engine glue (`chess_engine_setup.js`).

Strings from the host are modelled as `Option String` (`none` = JS
`null`/`undefined`); the JS falsiness of the empty string is checked
explicitly where the source relies on it.  Timer-driven control flow is
modelled as a step relation over an explicit machine state, with events
carrying the clock value and the value read from the live source.
-/

namespace ExtFenLichess

/-- Whitespace class used by the source's `split(/\s+/)` and `trim()`. -/
def isWs (c : Char) : Bool := c = ' ' || c = '\t' || c = '\n' || c = '\r'

/-- Worker for `jsSplitWs`: walks the character list; `inWsRun` records
whether we are inside a run of whitespace (a separator match), `cur` holds
the reversed characters of the token being read. -/
def splitGo : List Char → Bool → List Char → List String
  | [], inWsRun, cur =>
      if inWsRun then [""] else [String.mk cur.reverse]
  | c :: cs, inWsRun, cur =>
      if isWs c then
        if inWsRun then splitGo cs true []
        else String.mk cur.reverse :: splitGo cs true []
      else
        if inWsRun then splitGo cs false [c]
        else splitGo cs false (c :: cur)

/-- JS `s.split(/\s+/)`: splits on maximal whitespace runs; a leading
(resp. trailing) whitespace run contributes a leading (resp. trailing)
empty token, exactly as the JS regex split does. -/
def jsSplitWs (s : String) : List String := splitGo s.toList false []

/-- JS `s.trim()`: strip leading and trailing whitespace. -/
def jsTrim (s : String) : String :=
  String.mk (((s.toList.dropWhile isWs).reverse.dropWhile isWs).reverse)

/-- Does the list start with the pattern `pat`? -/
def startsWithChars : List Char → List Char → Bool
  | [], _ => true
  | _ :: _, [] => false
  | p :: ps, c :: cs => p = c && startsWithChars ps cs

/-- Does the list contain `pat` as a contiguous run? -/
def containsChars (pat : List Char) : List Char → Bool
  | [] => pat.isEmpty
  | c :: cs => startsWithChars pat (c :: cs) || containsChars pat cs

/-- JS `s.includes(sub)`. -/
def strContains (s sub : String) : Bool := containsChars sub.toList s.toList

/-- JS `x || d` for a string `x`: the empty string is the only falsy string. -/
def orDefault (s d : String) : String := if s = "" then d else s

/-- The `while (parts.length < 6) parts.push('-')` loop of `splitFen`:
pad the token list with `"-"` up to length 6. -/
def padDash (l : List String) : List String :=
  l ++ List.replicate (6 - l.length) "-"

/-- The normalized record built by `splitFen` in `mainListener.js`. -/
structure FenRecord where
  placement : String
  active : String
  castling : String
  ep : String
  half : String
  full : String
  raw : String
deriving Repr, DecidableEq

/-- Function `splitFen` from `mainListener.js` (lines 138–151): `null`/empty input
gives `null`; otherwise split on whitespace runs, pad with `"-"` to six
tokens, and assign the named fields positionally with the `||` defaults. -/
def splitFen : Option String → Option FenRecord
  | none => none
  | some fen =>
      if fen = "" then none
      else
        let parts := padDash (jsSplitWs fen)
        some {
          placement := parts.getD 0 ""
          active := orDefault (parts.getD 1 "") "?"
          castling := orDefault (parts.getD 2 "") "-"
          ep := orDefault (parts.getD 3 "") "-"
          half := orDefault (parts.getD 4 "") "0"
          full := orDefault (parts.getD 5 "") "1"
          raw := fen }

/-- Function `dispatch` from `mainListener.js` (lines 4–8): drop falsy payloads,
otherwise publish the raw string (the returned value is the published
payload of the `FENPush` event). -/
def dispatch (fen : String) : Option String :=
  if fen = "" then none else some fen

/-- Function `completeFen` from `chess_engine_setup.js` (lines 89–116): trim, split
on whitespace runs (no padding), and rebuild a six-field string with the
`||` defaults `w` / `KQkq` / `-` / `0` / `1`. -/
def completeFen : Option String → Option String
  | none => none
  | some s =>
      if s = "" then none
      else
        let parts := jsSplitWs (jsTrim s)
        let pieces := parts.getD 0 ""
        let turn := orDefault (parts.getD 1 "") "w"
        let castling := orDefault (parts.getD 2 "") "KQkq"
        let enPassant := orDefault (parts.getD 3 "") "-"
        let halfmove := orDefault (parts.getD 4 "") "0"
        let fullmove := orDefault (parts.getD 5 "") "1"
        some (pieces ++ " " ++ turn ++ " " ++ castling ++ " " ++ enPassant
          ++ " " ++ halfmove ++ " " ++ fullmove)

example : jsSplitWs "a  b " = ["a", "b", ""] := by decide
example : jsSplitWs " a" = ["", "a"] := by decide
example : jsTrim "  a b " = "a b" := by decide
example : strContains "8/8 w KQ" " w " = true := by decide
example : strContains "8/8 w" " w " = false := by decide
example :
    splitFen (some "rnbqkbnr/pppppppp/8/8/8/8/PPPPPPPP/RNBQKBNR") =
      some { placement := "rnbqkbnr/pppppppp/8/8/8/8/PPPPPPPP/RNBQKBNR"
             active := "-", castling := "-", ep := "-", half := "-", full := "-"
             raw := "rnbqkbnr/pppppppp/8/8/8/8/PPPPPPPP/RNBQKBNR" } := by
  decide
example : completeFen (some "8/8/8/8/8/8/8/8 b") =
    some "8/8/8/8/8/8/8/8 b KQkq - 0 1" := by decide
example : completeFen (some "pp") = some "pp w KQkq - 0 1" := by decide

/-! Section: the change stabilizer (`stableEmit` / `onAnyChange`) -/

/-- Constant `STABLE_DELAY_MS` in `mainListener.js`. -/
def STABLE_DELAY_MS : Nat := 220

/-- Constant `CONFIRM_DELAY_MS` in `mainListener.js`. -/
def CONFIRM_DELAY_MS : Nat := 120

/-- Constant `MAX_WAIT_MS` in `mainListener.js`. -/
def MAX_WAIT_MS : Nat := 1500

/-- Which callback (if any) is currently scheduled by `stableEmit`:
`idle` = neither timer holds a live callback; `settleWait start` = the
settle timer will run `attempt` (with `start` captured by the closure);
`confirmWait start f1` = the confirm timer will run the inner callback
with first sample `f1`. -/
inductive Phase
  | idle
  | settleWait (start : Nat)
  | confirmWait (start : Nat) (f1 : FenRecord)
deriving Repr, DecidableEq

/-- The mutable listener state of `mainListener.js`:
`lastSentPlacement`, `lastSentActive`, `pending`, and the scheduled-timer
state (the `settleTimer` / `confirmTimer` variables, abstracted to which
callback is still due to fire). -/
structure MState where
  lastP : Option String
  lastA : Option String
  pending : Bool
  phase : Phase
deriving Repr, DecidableEq

/-- Events driving the listener: a change notification (from the widget
event API, the mutation observer or the poller), the settle timer firing
(carrying the value `getFEN` returns at that moment), and the confirm
timer firing (carrying the clock value `performance.now()` and the read). -/
inductive Event
  | notify (now : Nat)
  | fireSettle (read : Option String)
  | fireConfirm (now : Nat) (read : Option String)
deriving Repr, DecidableEq

/-- One event of the listener.  Returns the successor state and the payload
published by `dispatch` during this event (if any).

* `notify` is `onAnyChange` (lines 201–204): a no-op while `pending`,
  otherwise `stableEmit` sets `pending`, records `start`, and schedules
  `attempt` on the settle timer.
* `fireSettle` is the body of `attempt` (lines 168–172 and 195–196): read
  and normalize `sampleA`; on `null` clear `pending` and stop, otherwise
  schedule the confirm callback.
* `fireConfirm` is the confirm callback (lines 173–195): read and
  normalize `sampleB`; on `null` clear `pending` and stop; otherwise
  emit when `isNewPosition && unchanged`, else retry while under
  `MAX_WAIT_MS`, else give up.

A fire event in a non-matching phase is a no-op (no such callback is
scheduled, so it cannot fire). -/
def step (st : MState) : Event → MState × Option String
  | .notify now =>
      if st.pending then (st, none)
      else ({ st with pending := true, phase := .settleWait now }, none)
  | .fireSettle read =>
      match st.phase with
      | .settleWait start =>
          match splitFen read with
          | none => ({ st with pending := false, phase := .idle }, none)
          | some f1 => ({ st with phase := .confirmWait start f1 }, none)
      | _ => (st, none)
  | .fireConfirm now read =>
      match st.phase with
      | .confirmWait start f1 =>
          match splitFen read with
          | none => ({ st with pending := false, phase := .idle }, none)
          | some f2 =>
              if (some f2.placement ≠ st.lastP ∨ some f2.active ≠ st.lastA)
                  ∧ (f2.placement = f1.placement ∧ f2.active = f1.active) then
                ({ lastP := some f2.placement, lastA := some f2.active,
                   pending := false, phase := .idle }, dispatch f2.raw)
              else if now - start < MAX_WAIT_MS then
                ({ st with phase := .settleWait start }, none)
              else
                ({ st with pending := false, phase := .idle }, none)
      | _ => (st, none)

/-- Run the listener over a sequence of events, collecting every published
payload in order. -/
def run : MState → List Event → MState × List String
  | st, [] => (st, [])
  | st, e :: es =>
      let p := step st e
      let q := run p.1 es
      (q.1, p.2.toList ++ q.2)

/-- Function `clearTimers` from `mainListener.js` (lines 159–162): cancel whichever
settle/confirm callback is scheduled (it does not touch `pending` or the
last-sent fields). -/
def clearTimers (st : MState) : MState := { st with phase := .idle }

/-- The states from which a new detection cycle may start hold no scheduled
timer: `pending = false` implies neither the settle nor the confirm
callback is due. -/
def NoStaleTimers (st : MState) : Prop :=
  st.pending = false → st.phase = Phase.idle

/-! Section: the position reader (`getFEN`) -/

/-- What the live DOM source does when `getFEN` queries it. -/
inductive ReadOutcome
  | noElement
  | noAccessor
  | throwsErr
  | nonString
  | value (s : String)
deriving Repr, DecidableEq

/-- Function `getFEN` from `mainListener.js` (lines 130–136): optional chaining
turns a missing element/accessor into `undefined`, the `typeof` check
turns any non-string into `null`, the `catch` turns a thrown error into
`null`, and a string result is trimmed.  Total by construction: the reader
never raises. -/
def getFEN : ReadOutcome → Option String
  | .noElement => none
  | .noAccessor => none
  | .throwsErr => none
  | .nonString => none
  | .value s => some (jsTrim s)

/-! Section: the direct push feed (WebSocket message listener) -/

/-- The fields of a Lichess socket message the listener reads on the
`d`/`move` branch: the message tag `t`, `msg.d.fen` when it is a string,
and `msg.d.ply` when present. -/
structure MoveMsg where
  t : String
  fen : Option String
  ply : Option Nat
deriving Repr, DecidableEq

/-- Expression `msg.d.ply % 2 === 0` in JS: with `ply` absent the expression is
`NaN === 0`, which is false. -/
def plyIsWhitesTurn : Option Nat → Bool
  | some n => n % 2 = 0
  | none => false

/-- The guard `fenStr.includes(' w ') || fenStr.includes(' b ')`. -/
def hasColorField (fen : String) : Bool :=
  strContains fen " w " || strContains fen " b "

/-- Lines 66–71 of `mainListener.js`: append `" w"`/`" b"` from the ply
parity when the payload string carries no active-color field. -/
def synthesizeFen (fen : String) (ply : Option Nat) : String :=
  if hasColorField fen then fen
  else fen ++ (if plyIsWhitesTurn ply then " w" else " b")

/-- The `d`/`move` branch of the WebSocket message listener (lines 60–95),
restricted to its published output: for a matching tag with a string
`fen`, synthesize the color if needed and `dispatch` at once. -/
def wsHandleMessage (msg : MoveMsg) : Option String :=
  if msg.t = "d" ∨ msg.t = "move" then
    match msg.fen with
    | some f => dispatch (synthesizeFen f msg.ply)
    | none => none
  else none

/-- The WebSocket listener runs outside the stabilizer: it never reads or
writes `pending`, the timers, or the last-sent fields, so as a step on the
listener state it leaves the state untouched and publishes immediately. -/
def wsStep (st : MState) (msg : MoveMsg) : MState × Option String :=
  (st, wsHandleMessage msg)

/-! Section: engine glue globals (`chess_engine_setup.js`) -/

/-- The module-level mutable variables of `chess_engine_setup.js` (lines
9–16).  The engine wrapper and WebSocket references are opaque handles. -/
structure EngineGlobals where
  chessEngine : Option Nat
  webSocketWrapper : Option Nat
  currentFen : Option String
  bestMove : Option String
  gameId : Option String
  isWhite : Option Bool
  timeLimitMs : Nat
  autoMoveEnabled : Bool
deriving Repr, DecidableEq

/-- Function `handleGameEnd` from `chess_engine_setup.js` (lines 286–296): null out
`currentFen`, `bestMove`, `gameId`, `isWhite`; keep everything else. -/
def handleGameEnd (g : EngineGlobals) : EngineGlobals :=
  { g with currentFen := none, bestMove := none, gameId := none, isWhite := none }

/-- The sample placement used in the spec's defaulting example. -/
def startPlacement : String := "rnbqkbnr/pppppppp/8/8/8/8/PPPPPPPP/RNBQKBNR"

/-! Section: helper lemmas -/

theorem splitFen_some_elim {fen : String} {r : FenRecord}
    (h : splitFen (some fen) = some r) :
    fen ≠ "" ∧ r =
      { placement := (padDash (jsSplitWs fen)).getD 0 ""
        active := orDefault ((padDash (jsSplitWs fen)).getD 1 "") "?"
        castling := orDefault ((padDash (jsSplitWs fen)).getD 2 "") "-"
        ep := orDefault ((padDash (jsSplitWs fen)).getD 3 "") "-"
        half := orDefault ((padDash (jsSplitWs fen)).getD 4 "") "0"
        full := orDefault ((padDash (jsSplitWs fen)).getD 5 "") "1"
        raw := fen } := by
  by_cases hf : fen = ""
  · simp [splitFen, hf] at h
  · refine ⟨hf, ?_⟩
    simp only [splitFen, hf, if_false, Option.some.injEq] at h
    exact h.symm

theorem splitFen_raw_ne {o : Option String} {r : FenRecord}
    (h : splitFen o = some r) : r.raw ≠ "" := by
  match o with
  | none => simp [splitFen] at h
  | some fen =>
      obtain ⟨hf, hr⟩ := splitFen_some_elim h
      rw [hr]
      exact hf

/-- A position that was padded (token index at or beyond the split length,
but below six) reads back as the `"-"` filler. -/
theorem padDash_getD (l : List String) (i : Nat)
    (h1 : l.length ≤ i) (h2 : i < 6) :
    (padDash l).getD i "" = "-" := by
  unfold padDash
  rw [List.getD_eq_getElem?_getD, List.getElem?_append_right h1,
    List.getElem?_replicate]
  have : i - l.length < 6 - l.length := by omega
  simp [this]

/-! Section: the claims -/

/-- Claim C2, counterexample: for the placement-only input of the spec's
defaulting example, `splitFen` does *not* produce `active = "?"`,
`half = "0"`, `full = "1"`: the `while`-loop pads the token list with
`"-"` before the positional assignment, and `"-"` is truthy, so all five
trailing fields come out as `"-"`. -/
theorem splitFen_defaults_counterexample :
    (splitFen (some startPlacement)).map FenRecord.active = some "-"
    ∧ (splitFen (some startPlacement)).map FenRecord.half = some "-"
    ∧ (splitFen (some startPlacement)).map FenRecord.full = some "-"
    ∧ (splitFen (some startPlacement)).map FenRecord.active ≠ some "?"
    ∧ (splitFen (some startPlacement)).map FenRecord.half ≠ some "0"
    ∧ (splitFen (some startPlacement)).map FenRecord.full ≠ some "1" := by
  decide

/-- Claim C2, amended: for every input whose whitespace split yields fewer
than six tokens, each missing trailing field of the `splitFen` output is
the padding sentinel `"-"` — including `active`, `half` and `full`, whose
`"?"`/`"0"`/`"1"` defaults are preempted by the `"-"` padding. -/
theorem splitFen_pads_missing_fields_with_dash (fen : String) (r : FenRecord)
    (h : splitFen (some fen) = some r) :
    ((jsSplitWs fen).length ≤ 1 → r.active = "-")
    ∧ ((jsSplitWs fen).length ≤ 2 → r.castling = "-")
    ∧ ((jsSplitWs fen).length ≤ 3 → r.ep = "-")
    ∧ ((jsSplitWs fen).length ≤ 4 → r.half = "-")
    ∧ ((jsSplitWs fen).length ≤ 5 → r.full = "-") := by
  obtain ⟨-, hr⟩ := splitFen_some_elim h
  subst hr
  refine ⟨fun h1 => ?_, fun h2 => ?_, fun h3 => ?_, fun h4 => ?_, fun h5 => ?_⟩
  · rw [padDash_getD _ 1 h1 (by omega)]; rfl
  · rw [padDash_getD _ 2 h2 (by omega)]; rfl
  · rw [padDash_getD _ 3 h3 (by omega)]; rfl
  · rw [padDash_getD _ 4 h4 (by omega)]; rfl
  · rw [padDash_getD _ 5 h5 (by omega)]; rfl

/-- Claim C2, amended witness, at the spec's own example input. -/
theorem splitFen_pads_missing_fields_with_dash_witness :
    (splitFen (some startPlacement)).isSome = true
    ∧ ∀ r : FenRecord, splitFen (some startPlacement) = some r →
        r.active = "-" ∧ r.half = "-" ∧ r.full = "-" := by
  refine ⟨by decide, fun r hr => ?_⟩
  obtain ⟨h1, -, -, h4, h5⟩ := splitFen_pads_missing_fields_with_dash startPlacement r hr
  exact ⟨h1 (by decide), h4 (by decide), h5 (by decide)⟩

/-- Claim C5: `splitFen` succeeds on every non-empty raw string, whatever its
token count, and the resulting record — which by the shape of `FenRecord`
carries exactly the six named fields `placement`, `active`, `castling`,
`ep`, `half`, `full` — retains the original raw string verbatim. -/
theorem splitFen_six_fields (fen : String) (h : fen ≠ "") :
    ∃ r : FenRecord, splitFen (some fen) = some r ∧ r.raw = fen := by
  refine ⟨{ placement := (padDash (jsSplitWs fen)).getD 0 ""
            active := orDefault ((padDash (jsSplitWs fen)).getD 1 "") "?"
            castling := orDefault ((padDash (jsSplitWs fen)).getD 2 "") "-"
            ep := orDefault ((padDash (jsSplitWs fen)).getD 3 "") "-"
            half := orDefault ((padDash (jsSplitWs fen)).getD 4 "") "0"
            full := orDefault ((padDash (jsSplitWs fen)).getD 5 "") "1"
            raw := fen }, ?_, rfl⟩
  simp [splitFen, h]

/-- Claim C5 witness, at a seven-token input. -/
theorem splitFen_six_fields_witness :
    ∃ r : FenRecord, splitFen (some "a b c d e f g") = some r
      ∧ r.raw = "a b c d e f g" :=
  splitFen_six_fields "a b c d e f g" (by decide)

/-- Reassociation of the fixed default tail built by `completeFen`. -/
theorem completeFen_tail (t : String) :
    t ++ " " ++ "w" ++ " " ++ "KQkq" ++ " " ++ "-" ++ " " ++ "0" ++ " " ++ "1"
      = t ++ " w KQkq - 0 1" := by
  simp only [String.append_assoc]
  congr 1

/-- Claim C9: on a non-empty input whose trimmed form splits into exactly one
token, `completeFen` returns that token followed by `" w KQkq - 0 1"` —
turn defaults to `"w"` and castling to `"KQkq"`, unlike the `"?"`/`"-"`
padding of the DOM-path `splitFen` — and a `null` input maps to `null`
(as does the falsy empty string). -/
theorem completeFen_single_token :
    (∀ s tok : String, s ≠ "" → jsSplitWs (jsTrim s) = [tok] →
        completeFen (some s) = some (tok ++ " w KQkq - 0 1"))
    ∧ completeFen none = none ∧ completeFen (some "") = none := by
  refine ⟨fun s tok hs htok => ?_, rfl, rfl⟩
  simp only [completeFen, hs, if_false, htok, Option.some.injEq]
  simp only [List.getD_cons_zero, List.getD_cons_succ, List.getD_nil]
  rw [show orDefault "" "w" = "w" from rfl, show orDefault "" "KQkq" = "KQkq" from rfl,
    show orDefault "" "-" = "-" from rfl, show orDefault "" "0" = "0" from rfl,
    show orDefault "" "1" = "1" from rfl]
  exact completeFen_tail tok

/-- Claim C9 witness, at a bare-placement input. -/
theorem completeFen_single_token_witness :
    completeFen (some "8/8/8/8/8/8/8/8") = some "8/8/8/8/8/8/8/8 w KQkq - 0 1" := by
  have h := completeFen_single_token.1 "8/8/8/8/8/8/8/8" "8/8/8/8/8/8/8/8"
    (by decide) (by decide)
  rw [h]
  decide

/-- Claim C10: `handleGameEnd` nulls exactly `currentFen`, `bestMove`,
`gameId` and `isWhite`, and leaves `chessEngine`, `webSocketWrapper`,
`timeLimitMs` and `autoMoveEnabled` untouched. -/
theorem handleGameEnd_frame (g : EngineGlobals) :
    (handleGameEnd g).currentFen = none
    ∧ (handleGameEnd g).bestMove = none
    ∧ (handleGameEnd g).gameId = none
    ∧ (handleGameEnd g).isWhite = none
    ∧ (handleGameEnd g).chessEngine = g.chessEngine
    ∧ (handleGameEnd g).webSocketWrapper = g.webSocketWrapper
    ∧ (handleGameEnd g).timeLimitMs = g.timeLimitMs
    ∧ (handleGameEnd g).autoMoveEnabled = g.autoMoveEnabled := by
  simp [handleGameEnd]

/-- Claim C1: the confirm-callback decision of `stableEmit`: with the confirm
timer scheduled (first sample `f1`) and the second read normalizing to
`f2`, (i) if the two samples agree on `placement`/`active` and `f2` differs
from the last-emitted values, then `f2.raw` is published, the last-emitted
fields become `f2`'s, and `pending` is cleared; (ii) otherwise, while the
elapsed time since `start` is below `MAX_WAIT_MS` (1500), a new sample
cycle is rescheduled on the settle timer (no emission, `pending` kept);
(iii) otherwise `pending` is cleared with no emission. -/
theorem confirm_decision (st : MState) (start : Nat) (f1 : FenRecord)
    (now : Nat) (read : Option String) (f2 : FenRecord)
    (hphase : st.phase = Phase.confirmWait start f1)
    (hsplit : splitFen read = some f2) :
    ((f2.placement = f1.placement ∧ f2.active = f1.active) →
      (some f2.placement ≠ st.lastP ∨ some f2.active ≠ st.lastA) →
      step st (Event.fireConfirm now read) =
        ({ lastP := some f2.placement, lastA := some f2.active,
           pending := false, phase := Phase.idle }, some f2.raw))
    ∧ (¬((some f2.placement ≠ st.lastP ∨ some f2.active ≠ st.lastA)
          ∧ (f2.placement = f1.placement ∧ f2.active = f1.active)) →
        now - start < MAX_WAIT_MS →
        step st (Event.fireConfirm now read) =
          ({ st with phase := Phase.settleWait start }, none))
    ∧ (¬((some f2.placement ≠ st.lastP ∨ some f2.active ≠ st.lastA)
          ∧ (f2.placement = f1.placement ∧ f2.active = f1.active)) →
        ¬(now - start < MAX_WAIT_MS) →
        step st (Event.fireConfirm now read) =
          ({ st with pending := false, phase := Phase.idle }, none)) := by
  obtain ⟨lp, la, pd, ph⟩ := st
  dsimp only at hphase ⊢
  subst hphase
  have hraw : dispatch f2.raw = some f2.raw := by
    unfold dispatch
    rw [if_neg (splitFen_raw_ne hsplit)]
  refine ⟨fun hu hn => ?_, fun hno ht => ?_, fun hno ht => ?_⟩
  · simp only [step, hsplit]
    rw [if_pos ⟨hn, hu⟩, hraw]
  · simp only [step, hsplit]
    rw [if_neg hno, if_pos ht]
  · simp only [step, hsplit]
    rw [if_neg hno, if_neg ht]

/-- Claim C1 witness: a concrete emit at the confirmed sample. -/
theorem confirm_decision_witness :
    step ⟨some "P0", some "w", true,
        Phase.confirmWait 100 ⟨"X", "w", "-", "-", "-", "-", "X w"⟩⟩
      (Event.fireConfirm 400 (some "X w")) =
    ({ lastP := some "X", lastA := some "w",
       pending := false, phase := Phase.idle }, some "X w") :=
  (confirm_decision ⟨some "P0", some "w", true,
      Phase.confirmWait 100 ⟨"X", "w", "-", "-", "-", "-", "X w"⟩⟩
    100 ⟨"X", "w", "-", "-", "-", "-", "X w"⟩ 400 (some "X w")
    ⟨"X", "w", "-", "-", "-", "-", "X w"⟩ rfl (by decide)).1
    (by decide) (by decide)

/-- Claim C3: `pending` is the single-flight guard: a change notification
arriving while `pending` is true is a silent no-op (state untouched,
nothing published), and a whole burst of such notifications leaves the
state untouched and publishes nothing — the burst yields no additional
attempts at all (in particular at most one subsequent attempt, never N). -/
theorem pending_single_flight :
    (∀ (st : MState) (now : Nat), st.pending = true →
        step st (Event.notify now) = (st, none))
    ∧ (∀ (st : MState) (es : List Event), st.pending = true →
        (∀ e ∈ es, ∃ t, e = Event.notify t) → run st es = (st, [])) := by
  have h1 : ∀ (st : MState) (now : Nat), st.pending = true →
      step st (Event.notify now) = (st, none) := by
    intro st now h
    simp [step, h]
  refine ⟨h1, fun st es => ?_⟩
  induction es generalizing st with
  | nil => intro _ _; simp [run]
  | cons e es ih =>
      intro hp hall
      obtain ⟨t, rfl⟩ := hall e (List.mem_cons_self e es)
      have hs := h1 st t hp
      have htail := ih st hp (fun e' he' => hall e' (List.mem_cons_of_mem _ he'))
      simp only [run, hs, htail]
      simp

/-- Claim C3 witness: a burst of three notifications during a pending attempt. -/
theorem pending_single_flight_witness :
    run ⟨none, none, true, Phase.settleWait 0⟩
        [Event.notify 1, Event.notify 2, Event.notify 3]
      = (⟨none, none, true, Phase.settleWait 0⟩, []) :=
  pending_single_flight.2 ⟨none, none, true, Phase.settleWait 0⟩
    [Event.notify 1, Event.notify 2, Event.notify 3] rfl
    (by
      intro e he
      simp only [List.mem_cons, List.not_mem_nil, or_false] at he
      rcases he with rfl | rfl | rfl
      exacts [⟨1, rfl⟩, ⟨2, rfl⟩, ⟨3, rfl⟩])

/-- The reads of an event sequence all return the fixed raw position `P`. -/
def readsOnly (P : String) : Event → Prop
  | .notify _ => True
  | .fireSettle r => r = some P
  | .fireConfirm _ r => r = some P

theorem step_same_position_no_emit (P : String) (f : FenRecord) (st : MState)
    (e : Event) (hsplit : splitFen (some P) = some f)
    (hp : st.lastP = some f.placement) (ha : st.lastA = some f.active)
    (he : readsOnly P e) :
    (step st e).2 = none ∧ (step st e).1.lastP = st.lastP
    ∧ (step st e).1.lastA = st.lastA := by
  obtain ⟨lp, la, pd, ph⟩ := st
  dsimp only at hp ha
  subst hp
  subst ha
  cases e with
  | notify now =>
      simp only [step]
      split <;> simp
  | fireSettle r =>
      have hr : r = some P := he
      subst hr
      cases ph <;> simp [step, hsplit]
  | fireConfirm now r =>
      have hr : r = some P := he
      subst hr
      cases ph with
      | idle => simp [step]
      | settleWait s => simp [step]
      | confirmWait s f1 =>
          simp only [step, hsplit]
          have hcond : ¬((some f.placement ≠ some f.placement
              ∨ some f.active ≠ some f.active)
              ∧ (f.placement = f1.placement ∧ f.active = f1.active)) := by
            rintro ⟨h1, -⟩
            rcases h1 with h1 | h1 <;> exact h1 rfl
          rw [if_neg hcond]
          split <;> simp

/-- Claim C4: idempotence of emission: if the last-emitted placement and
active color already equal those of the position `P`, then any sequence of
detection events in which every read returns `P` publishes nothing and
leaves the last-emitted fields unchanged. -/
theorem idempotent_no_reemission (P : String) (f : FenRecord) (st : MState)
    (es : List Event) (hsplit : splitFen (some P) = some f)
    (hp : st.lastP = some f.placement) (ha : st.lastA = some f.active)
    (hall : ∀ e ∈ es, readsOnly P e) :
    (run st es).2 = [] ∧ (run st es).1.lastP = st.lastP
    ∧ (run st es).1.lastA = st.lastA := by
  induction es generalizing st with
  | nil => simp [run]
  | cons e es ih =>
      have h1 := step_same_position_no_emit P f st e hsplit hp ha
        (hall e (List.mem_cons_self e es))
      have h2 := ih (step st e).1 (by rw [h1.2.1, hp]) (by rw [h1.2.2, ha])
        (fun e' he' => hall e' (List.mem_cons_of_mem _ he'))
      simp only [run]
      refine ⟨?_, ?_, ?_⟩
      · rw [h1.1]
        simpa using h2.1
      · rw [h2.2.1, h1.2.1]
      · rw [h2.2.2, h1.2.2]

/-- Claim C4 witness: a full re-detection cycle of the already-emitted
position publishes nothing. -/
theorem idempotent_no_reemission_witness :
    (run ⟨some "X", some "w", false, Phase.idle⟩
        [Event.notify 0, Event.fireSettle (some "X w"),
         Event.fireConfirm 340 (some "X w"), Event.fireSettle (some "X w"),
         Event.fireConfirm 560 (some "X w")]).2 = [] :=
  (idempotent_no_reemission "X w" ⟨"X", "w", "-", "-", "-", "-", "X w"⟩
    ⟨some "X", some "w", false, Phase.idle⟩ _ (by decide) rfl rfl
    (by
      intro e he
      simp only [List.mem_cons, List.not_mem_nil, or_false] at he
      rcases he with rfl | rfl | rfl | rfl | rfl <;> simp [readsOnly])).1

theorem step_preserves_noStale (st : MState) (e : Event)
    (h : NoStaleTimers st) : NoStaleTimers (step st e).1 := by
  obtain ⟨l, a, pd, ph⟩ := st
  cases e with
  | notify now =>
      simp only [step]
      split
      · exact h
      · intro hfalse
        simp at hfalse
  | fireSettle read =>
      cases ph with
      | idle => simpa [step] using h
      | confirmWait s f1 => simpa [step] using h
      | settleWait s =>
          have hpd : pd = true := by
            cases pd
            · exact absurd (h rfl) (by simp)
            · rfl
          subst hpd
          cases hsp : splitFen read with
          | none => simp [step, hsp, NoStaleTimers]
          | some f1 => simp [step, hsp, NoStaleTimers]
  | fireConfirm now read =>
      cases ph with
      | idle => simpa [step] using h
      | settleWait s => simpa [step] using h
      | confirmWait s f1 =>
          have hpd : pd = true := by
            cases pd
            · exact absurd (h rfl) (by simp)
            · rfl
          subst hpd
          cases hsp : splitFen read with
          | none => simp [step, hsp, NoStaleTimers]
          | some f2 =>
              simp only [step, hsp]
              split
              · simp [NoStaleTimers]
              · split
                · simp [NoStaleTimers]
                · simp [NoStaleTimers]

theorem run_preserves_noStale (st : MState) (es : List Event)
    (h : NoStaleTimers st) : NoStaleTimers (run st es).1 := by
  induction es generalizing st with
  | nil => simpa [run] using h
  | cons e es ih =>
      simp only [run]
      exact ih (step st e).1 (step_preserves_noStale st e h)

/-- Claim C6: no stale settle/confirm callback: in every state the listener
can reach from its initial idle state, whenever a new detection cycle may
start (`pending = false`) there is no previously scheduled settle or
confirm callback left to fire — so at the moment the new cycle schedules
its own settle timer, the set of stale timers to cancel is empty (which is
why `stableEmit` itself contains no `clearTimeout` call) — and the
teardown hook `clearTimers` cancels whatever callback is scheduled. -/
theorem no_stale_timer_at_cycle_start :
    (∀ (l a : Option String) (es : List Event),
        (run ⟨l, a, false, Phase.idle⟩ es).1.pending = false →
        (run ⟨l, a, false, Phase.idle⟩ es).1.phase = Phase.idle)
    ∧ (∀ st : MState, (clearTimers st).phase = Phase.idle) :=
  ⟨fun l a es =>
      run_preserves_noStale ⟨l, a, false, Phase.idle⟩ es (fun _ => rfl),
    fun _ => rfl⟩

/-- Claim C6 witness: after a full emit cycle the listener is idle with no
scheduled callback. -/
theorem no_stale_timer_witness :
    (run ⟨none, none, false, Phase.idle⟩
        [Event.notify 0, Event.fireSettle (some "X w"),
         Event.fireConfirm 340 (some "X w")]).1.phase = Phase.idle :=
  no_stale_timer_at_cycle_start.1 none none
    [Event.notify 0, Event.fireSettle (some "X w"),
     Event.fireConfirm 340 (some "X w")] (by decide)

/-- Claim C7: failed reads abandon the attempt silently: the reader maps a
missing element, missing accessor, thrown error or non-string value to
`none` (it is a total function — it never raises), a whitespace-only read
normalizes to `none`, and on a `none` normalization at either the settle
or the confirm callback the stabilizer clears `pending`, goes idle,
publishes nothing, and keeps the last-emitted fields unchanged. -/
theorem absent_read_abandons :
    (getFEN ReadOutcome.noElement = none
      ∧ getFEN ReadOutcome.noAccessor = none
      ∧ getFEN ReadOutcome.throwsErr = none
      ∧ getFEN ReadOutcome.nonString = none
      ∧ ∀ s : String, jsTrim s = "" →
          splitFen (getFEN (ReadOutcome.value s)) = none)
    ∧ (∀ (st : MState) (start : Nat) (read : Option String),
        st.phase = Phase.settleWait start → splitFen read = none →
        step st (Event.fireSettle read) =
          ({ st with pending := false, phase := Phase.idle }, none))
    ∧ (∀ (st : MState) (start now : Nat) (f1 : FenRecord)
          (read : Option String),
        st.phase = Phase.confirmWait start f1 → splitFen read = none →
        step st (Event.fireConfirm now read) =
          ({ st with pending := false, phase := Phase.idle }, none)) := by
  refine ⟨⟨rfl, rfl, rfl, rfl, fun s hs => ?_⟩, ?_, ?_⟩
  · simp [getFEN, hs, splitFen]
  · intro st start read hphase hsplit
    obtain ⟨l, a, pd, ph⟩ := st
    dsimp only at hphase ⊢
    subst hphase
    simp [step, hsplit]
  · intro st start now f1 read hphase hsplit
    obtain ⟨l, a, pd, ph⟩ := st
    dsimp only at hphase ⊢
    subst hphase
    simp [step, hsplit]

/-- Claim C7 witness: a read failure at the settle callback abandons the
attempt with the last-emitted fields intact. -/
theorem absent_read_abandons_witness :
    step ⟨some "p", some "w", true, Phase.settleWait 5⟩
        (Event.fireSettle none) =
      (⟨some "p", some "w", false, Phase.idle⟩, none) :=
  absent_read_abandons.2.1 ⟨some "p", some "w", true, Phase.settleWait 5⟩
    5 none rfl rfl

theorem synthesizeFen_ne_empty (f : String) (ply : Option Nat) :
    synthesizeFen f ply ≠ "" := by
  unfold synthesizeFen
  split
  next hc =>
    intro h0
    rw [h0] at hc
    exact absurd hc (by decide)
  next hc =>
    intro h
    have hd := congrArg String.data h
    rw [String.data_append] at hd
    rw [show ("" : String).data = [] from rfl] at hd
    obtain ⟨-, h2⟩ := List.append_eq_nil.mp hd
    revert h2
    split <;> decide

/-- Claim C8: direct-feed bypass: on a push message tagged `d` or `move`
carrying a position string, the WebSocket listener leaves the stabilizer
state (pending flag, timers, last-sent fields) completely untouched — it
consults no pending guard and schedules no settle/confirm delay — and
publishes in the same step; when the payload lacks an active-color field
(no `" w "`/`" b "` token), the color appended before emission comes from
the ply parity: even ply gives `" w"`, odd ply gives `" b"`. -/
theorem direct_feed_bypass (st : MState) (t f : String) (n : Nat)
    (ht : t = "d" ∨ t = "move") :
    (wsStep st ⟨t, some f, some n⟩).1 = st
    ∧ (wsStep st ⟨t, some f, some n⟩).2 = some (synthesizeFen f (some n))
    ∧ (hasColorField f = false →
        synthesizeFen f (some n) = f ++ (if n % 2 = 0 then " w" else " b")) := by
  refine ⟨rfl, ?_, fun hc => ?_⟩
  · show wsHandleMessage ⟨t, some f, some n⟩ = _
    simp only [wsHandleMessage]
    rw [if_pos ht]
    unfold dispatch
    rw [if_neg (synthesizeFen_ne_empty f (some n))]
  · unfold synthesizeFen
    rw [hc]
    by_cases hn : n % 2 = 0 <;> simp [plyIsWhitesTurn, hn]

/-- Claim C8 witness: an odd-ply push with a bare placement emits with `" b"`
appended, with the stabilizer state untouched. -/
theorem direct_feed_bypass_witness :
    (wsStep ⟨none, none, true, Phase.idle⟩
        ⟨"d", some "8/8/8/8/8/8/8/8", some 5⟩).2
      = some ("8/8/8/8/8/8/8/8" ++ " b") := by
  have h := direct_feed_bypass ⟨none, none, true, Phase.idle⟩ "d"
    "8/8/8/8/8/8/8/8" 5 (Or.inl rfl)
  rw [h.2.1, h.2.2 (by decide)]
  decide

end ExtFenLichess
